import Mathlib

/-!
Verification of the MCoreUtils thread-rule engine against its specification.

The development shallowly embeds the C sources of `MCoreUtilsApp`
(`utils.c`, `threadRules.c`) in Lean:

* C strings are `List Char` (`Str`), excluding the terminating NUL;
* `cpu_set_t` is a `Finset ℤ` of set CPU indices (`CPU_SET` on an `int`);
* the POSIX regex engine is external to the repository, so compilation
  success (`regcomp`) and matching (`regexec`) enter as oracle parameters
  (`compileOk`, `regMatch`); the source's use of their results is embedded
  faithfully;
* the EPICS runtime's `epicsThreadGetPosixPriority` (priority-scale
  translation, external to the repository) enters as an oracle `getPosix`;
* machine integers are `Int`/`Nat`; the one place where C unsigned
  wrap-around semantics can matter (`modifyRTProperties`) applies an
  explicit `% 2^32`.

Definitions mirror the C control flow; loops are embedded with explicit
fuel so that everything reduces in the kernel.
-/

namespace MCoreUtils

/-- C strings, without the terminating NUL. -/
abbrev Str := List Char

/-! ### Constants

From EPICS base `epicsThread.h` (external dependency of the repository):
`epicsThreadPriorityMin = 0`, `epicsThreadPriorityMax = 99`.
From Linux `sched.h`: the scheduling-policy constants. -/

def epicsThreadPriorityMin : Int := 0

def epicsThreadPriorityMax : Int := 99

def SCHED_OTHER : Int := 0

def SCHED_FIFO : Int := 1

def SCHED_RR : Int := 2

def SCHED_BATCH : Int := 3

def SCHED_IDLE : Int := 5

/-! ### Character classification (ASCII, as in the C locale) -/

/-- C `isdigit`. -/
def isDigitChar (c : Char) : Bool := 48 ≤ c.toNat && c.toNat ≤ 57

/-- C `isspace` (the characters `atoi` skips). -/
def isSpaceChar (c : Char) : Bool :=
  c.toNat = 32 || (9 ≤ c.toNat && c.toNat ≤ 13)

/-- C `tolower` in the ASCII locale. -/
def charLower (c : Char) : Char :=
  if 65 ≤ c.toNat ∧ c.toNat ≤ 90 then Char.ofNat (c.toNat + 32) else c

/-- The decimal digit character for `n < 10` (as produced by `sprintf "%d"`). -/
def digitChar (n : Nat) : Char := Char.ofNat (n + 48)

/-! ### `atoi` (C standard library, as used by `strToCpuset`/`parseModifiers`) -/

/-- The digit-consuming loop of `atoi`: accumulates leading decimal digits,
stops at the first non-digit. -/
def atoiDigits : Str → Nat → Nat
  | [], acc => acc
  | c :: cs, acc =>
      if isDigitChar c then atoiDigits cs (acc * 10 + (c.toNat - 48)) else acc

/-- C `atoi`: skip leading whitespace, optional single sign, leading digits. -/
def atoi (s : Str) : Int :=
  match s.dropWhile isSpaceChar with
  | [] => 0
  | c :: rest =>
      if c = '-' then -(atoiDigits rest 0 : Int)
      else if c = '+' then (atoiDigits rest 0 : Int)
      else (atoiDigits (c :: rest) 0 : Int)

/-! ### Decimal rendering of a natural number (`sprintf "%d"`, nonnegative case) -/

/-- Digit-emitting loop, with fuel (`fuel ≥ n` suffices). -/
def natDigitsGo : Nat → Nat → Str → Str
  | 0, n, acc => digitChar n :: acc
  | fuel + 1, n, acc =>
      if n < 10 then digitChar n :: acc
      else natDigitsGo fuel (n / 10) (digitChar (n % 10) :: acc)

/-- Decimal digits of `n`, most significant first. -/
def natDigits (n : Nat) : Str := natDigitsGo n n []

/-! ### Splitting on commas (`strtok_r(_, ",", _)`) and joining -/

/-- Split a string at every `','` (keeping empty pieces; `strtok` semantics
are recovered by filtering out the empty pieces). Never returns `[]`. -/
def splitComma : Str → List Str
  | [] => [[]]
  | c :: rest =>
      match splitComma rest with
      | [] => [[]]
      | t :: ts => if c = ',' then [] :: t :: ts else (c :: t) :: ts

/-- Join strings with `','` separators. -/
def joinComma : List Str → Str
  | [] => []
  | [p] => p
  | p :: q :: ps => p ++ ',' :: joinComma (q :: ps)

/-! ## Lemmas: digits and `atoi` -/

theorem digitChar_toNat {n : Nat} (h : n < 10) : (digitChar n).toNat = n + 48 := by
  interval_cases n <;> decide

theorem isDigitChar_digitChar {n : Nat} (h : n < 10) : isDigitChar (digitChar n) = true := by
  interval_cases n <;> decide

theorem digitChar_ne_comma {n : Nat} (h : n < 10) : digitChar n ≠ ',' := by
  interval_cases n <;> decide

theorem digitChar_ne_dash {n : Nat} (h : n < 10) : digitChar n ≠ '-' := by
  interval_cases n <;> decide

theorem isDigitChar_not_space {c : Char} (h : isDigitChar c = true) :
    isSpaceChar c = false := by
  simp only [isDigitChar, Bool.and_eq_true, decide_eq_true_eq] at h
  simp only [isSpaceChar, Bool.or_eq_false_iff, Bool.and_eq_false_iff,
    decide_eq_false_iff_not]
  omega

theorem natDigitsGo_acc (fuel n : Nat) (acc : Str) :
    natDigitsGo fuel n acc = natDigitsGo fuel n [] ++ acc := by
  induction fuel generalizing n acc with
  | zero => simp [natDigitsGo]
  | succ fuel ih =>
    simp only [natDigitsGo]
    by_cases h : n < 10
    · simp [h]
    · simp only [if_neg h]
      rw [ih (n / 10) (digitChar (n % 10) :: acc), ih (n / 10) [digitChar (n % 10)]]
      simp

theorem natDigitsGo_all_digits (fuel n : Nat) (h : n ≤ fuel) :
    ∀ c ∈ natDigitsGo fuel n [], isDigitChar c = true := by
  induction fuel generalizing n with
  | zero =>
    intro c hc
    have hn : n = 0 := Nat.le_zero.mp h
    subst hn
    simp only [natDigitsGo, List.mem_singleton] at hc
    subst hc
    exact isDigitChar_digitChar (by omega)
  | succ fuel ih =>
    intro c hc
    simp only [natDigitsGo] at hc
    by_cases h10 : n < 10
    · rw [if_pos h10] at hc
      simp only [List.mem_singleton] at hc
      subst hc
      exact isDigitChar_digitChar h10
    · rw [if_neg h10, natDigitsGo_acc] at hc
      rcases List.mem_append.mp hc with h1 | h1
      · exact ih (n / 10) (by omega) c h1
      · simp only [List.mem_singleton] at h1
        subst h1
        exact isDigitChar_digitChar (Nat.mod_lt _ (by omega))

theorem natDigits_all_digits (n : Nat) :
    ∀ c ∈ natDigits n, isDigitChar c = true :=
  natDigitsGo_all_digits n n (le_refl n)

theorem natDigitsGo_ne_nil (fuel n : Nat) : natDigitsGo fuel n [] ≠ [] := by
  cases fuel with
  | zero => simp [natDigitsGo]
  | succ fuel =>
    simp only [natDigitsGo]
    by_cases h : n < 10
    · simp [h]
    · rw [if_neg h, natDigitsGo_acc]
      simp

theorem natDigits_ne_nil (n : Nat) : natDigits n ≠ [] := natDigitsGo_ne_nil n n

/-- The read-back value of a digit string, as `atoiDigits` computes it. -/
theorem natDigitsGo_foldl (fuel n : Nat) (h : n ≤ fuel) (acc : Nat) :
    (natDigitsGo fuel n []).foldl (fun a c => a * 10 + (c.toNat - 48)) acc =
      acc * 10 ^ (natDigitsGo fuel n []).length + n := by
  induction fuel generalizing n acc with
  | zero =>
    have hn : n = 0 := Nat.le_zero.mp h
    subst hn
    simp [natDigitsGo, digitChar_toNat (by omega : (0:Nat) < 10)]
  | succ fuel ih =>
    by_cases h10 : n < 10
    · simp [natDigitsGo, if_pos h10, digitChar_toNat h10]
    · have hrec : n / 10 ≤ fuel := by omega
      simp only [natDigitsGo, if_neg h10]
      rw [natDigitsGo_acc]
      rw [List.foldl_append, List.length_append]
      rw [ih (n / 10) hrec acc]
      simp only [List.foldl_cons, List.foldl_nil, List.length_singleton]
      rw [digitChar_toNat (Nat.mod_lt _ (by omega))]
      have : n % 10 + 48 - 48 = n % 10 := by omega
      rw [this, pow_succ]
      have hmod : n % 10 + 10 * (n / 10) = n := Nat.mod_add_div n 10
      ring_nf
      omega

/-- `atoiDigits` consumes a leading digit block, then continues. -/
theorem atoiDigits_append (ds rest : Str) (hd : ∀ c ∈ ds, isDigitChar c = true)
    (acc : Nat) :
    atoiDigits (ds ++ rest) acc =
      atoiDigits rest (ds.foldl (fun a c => a * 10 + (c.toNat - 48)) acc) := by
  induction ds generalizing acc with
  | nil => simp
  | cons c cs ih =>
    have hc : isDigitChar c = true := hd c (List.mem_cons_self c cs)
    simp only [List.cons_append, atoiDigits, if_pos hc, List.foldl_cons]
    exact ih (fun d hmem => hd d (List.mem_cons_of_mem c hmem)) _

theorem atoiDigits_stop (c : Char) (rest : Str) (h : isDigitChar c = false)
    (acc : Nat) : atoiDigits (c :: rest) acc = acc := by
  simp [atoiDigits, h]

theorem atoiDigits_natDigits (n : Nat) (rest : Str)
    (hrest : rest = [] ∨ ∃ c rs, rest = c :: rs ∧ isDigitChar c = false) :
    atoiDigits (natDigits n ++ rest) 0 = n := by
  rw [atoiDigits_append (natDigits n) rest (natDigits_all_digits n) 0]
  rw [show (natDigits n).foldl (fun a c => a * 10 + (c.toNat - 48)) 0 =
      0 * 10 ^ (natDigits n).length + n from natDigitsGo_foldl n n (le_refl n) 0]
  rcases hrest with h | ⟨c, rs, rfl, hc⟩
  · subst h; simp [atoiDigits]
  · rw [atoiDigits_stop c rs hc]; simp

/-! ## CpuSetCodec: `strToCpuset` (utils.c:29-50) -/

/-- The contribution of one `strtok` token to the cpuset:
`from = to = atoi(tok); sep = strstr(tok, "-"); if (sep) to = atoi(sep+1);`
then `for (i = from; i <= to; i++) CPU_SET(i, cpuset);`.
`lo`/`hi` stand for the C locals `from`/`to` (`from` is a Lean keyword). -/
def tokenSet (tok : Str) : Finset ℤ :=
  let lo := atoi tok
  let sep := tok.dropWhile (fun c => c ≠ '-')
  let hi := if sep = [] then lo else atoi (sep.drop 1)
  Finset.Icc lo hi

/-- `strToCpuset` (utils.c:29): zero the set, then tokenize the spec on `','`
(`strtok_r` skips empty tokens) and set each token's range of bits. -/
def strToCpuset (spec : Str) : Finset ℤ :=
  ((splitComma spec).filter (fun t => t ≠ [])).foldl (fun acc tok => acc ∪ tokenSet tok) ∅

/-! ## CpuSetCodec: `cpusetToStr` (utils.c:59-88)

The C function scans `cpu` upward from 0, skipping unset bits, collecting
each maximal run of consecutive set bits below `NO_OF_CPUS` (`numCpus`
here), printing `"n,"` or `"from-to,"` per run into the output buffer and
finally chopping the trailing `','`.  The two inner `while` loops are
embedded as `findNextSet` and `runEnd`; the outer loop as `cpusetRuns`.
The output buffer is modelled as unbounded (the `len`/`strncat`
truncation is adequacy of the caller's buffer, outside the codec law). -/

/-- `while (!CPU_ISSET(cpu, cpuset) && cpu < NO_OF_CPUS) cpu++;` —
first index `≥ cpu` that is in the set, else `numCpus`.
Any `fuel ≥ numCpus - cpu` gives the loop's behavior. -/
def findNextSet (s : Finset ℤ) (numCpus : Nat) : Nat → Nat → Nat
  | 0, cpu => cpu
  | fuel + 1, cpu =>
      if cpu < numCpus then
        if (cpu : ℤ) ∈ s then cpu else findNextSet s numCpus fuel (cpu + 1)
      else cpu

/-- `from = to = cpu++; while (CPU_ISSET(cpu, cpuset) && cpu < NO_OF_CPUS) to = cpu++;` —
end of the run of consecutive set bits starting at `cpu`. -/
def runEnd (s : Finset ℤ) (numCpus : Nat) : Nat → Nat → Nat
  | 0, cpu => cpu
  | fuel + 1, cpu =>
      if ((cpu + 1 : Nat) : ℤ) ∈ s ∧ cpu + 1 < numCpus then
        runEnd s numCpus fuel (cpu + 1)
      else cpu

/-- The outer scanning loop of `cpusetToStr`: the list of maximal runs
`(from, to)` of set bits in `[0, numCpus)`, in ascending order. -/
def cpusetRuns (s : Finset ℤ) (numCpus : Nat) : Nat → Nat → List (Nat × Nat)
  | 0, _cpu => []
  | fuel + 1, cpu =>
      if cpu < numCpus then
        let f := findNextSet s numCpus numCpus cpu
        if f < numCpus then
          let e := runEnd s numCpus numCpus f
          (f, e) :: cpusetRuns s numCpus fuel (e + 1)
        else []
      else []

/-- `sprintf(buf, "%d,", from)` / `sprintf(buf, "%d-%d,", from, to)`,
without the trailing comma. -/
def renderRun (r : Nat × Nat) : Str :=
  if r.1 = r.2 then natDigits r.1 else natDigits r.1 ++ '-' :: natDigits r.2

/-- `cpusetToStr` (utils.c:59): render every run followed by a `','`, then
drop the final character. -/
def cpusetToStr (numCpus : Nat) (s : Finset ℤ) : Str :=
  (((cpusetRuns s numCpus (numCpus + 1) 0).map (fun r => renderRun r ++ [','])).flatten).dropLast

/-! ## Lemmas: `atoi` on rendered numbers -/

theorem isDigitChar_ne_dash {c : Char} (h : isDigitChar c = true) : c ≠ '-' := by
  simp only [isDigitChar, Bool.and_eq_true, decide_eq_true_eq] at h
  intro hc
  subst hc
  simp at h

theorem isDigitChar_ne_plus {c : Char} (h : isDigitChar c = true) : c ≠ '+' := by
  simp only [isDigitChar, Bool.and_eq_true, decide_eq_true_eq] at h
  intro hc
  subst hc
  simp at h

theorem isDigitChar_ne_comma {c : Char} (h : isDigitChar c = true) : c ≠ ',' := by
  simp only [isDigitChar, Bool.and_eq_true, decide_eq_true_eq] at h
  intro hc
  subst hc
  simp at h

theorem dropWhile_append_all {p : Char → Bool} (xs ys : Str)
    (h : ∀ c ∈ xs, p c = true) :
    (xs ++ ys).dropWhile p = ys.dropWhile p := by
  induction xs with
  | nil => simp
  | cons c cs ih =>
    simp only [List.cons_append, List.dropWhile_cons, h c (List.mem_cons_self c cs),
      if_pos rfl]
    exact ih (fun d hd => h d (List.mem_cons_of_mem c hd))

/-- `atoi` of a rendered natural followed by a non-digit (or nothing) reads
the natural back. -/
theorem atoi_natDigits_append (n : Nat) (rest : Str)
    (hrest : rest = [] ∨ ∃ c rs, rest = c :: rs ∧ isDigitChar c = false) :
    atoi (natDigits n ++ rest) = n := by
  obtain ⟨c, cs, hcons⟩ : ∃ c cs, natDigits n = c :: cs := by
    cases hnd : natDigits n with
    | nil => exact absurd hnd (natDigits_ne_nil n)
    | cons c cs => exact ⟨c, cs, rfl⟩
  have hc : isDigitChar c = true := by
    have := natDigits_all_digits n
    rw [hcons] at this
    exact this c (List.mem_cons_self c cs)
  have hdrop : (natDigits n ++ rest).dropWhile isSpaceChar = c :: (cs ++ rest) := by
    rw [hcons, List.cons_append, List.dropWhile_cons, isDigitChar_not_space hc]
    simp
  simp only [atoi, hdrop]
  rw [if_neg (isDigitChar_ne_dash hc), if_neg (isDigitChar_ne_plus hc)]
  have : (c :: (cs ++ rest)) = natDigits n ++ rest := by rw [hcons]; simp
  rw [this, atoiDigits_natDigits n rest hrest]

theorem atoi_natDigits (n : Nat) : atoi (natDigits n) = n := by
  have := atoi_natDigits_append n [] (Or.inl rfl)
  simpa using this

/-! ## Lemmas: `tokenSet` on rendered runs -/

theorem tokenSet_natDigits (n : Nat) : tokenSet (natDigits n) = Finset.Icc (n : ℤ) n := by
  have hsep : (natDigits n).dropWhile (fun c => c ≠ '-') = [] := by
    have : (natDigits n ++ ([] : Str)).dropWhile (fun c => c ≠ '-') =
        ([] : Str).dropWhile (fun c => c ≠ '-') := by
      refine dropWhile_append_all _ _ (fun c hc => ?_)
      simp only [ne_eq, decide_eq_true_eq]
      exact isDigitChar_ne_dash (natDigits_all_digits n c hc)
    simpa using this
  unfold tokenSet
  rw [hsep]
  simp [atoi_natDigits]

theorem tokenSet_range (a b : Nat) :
    tokenSet (natDigits a ++ '-' :: natDigits b) = Finset.Icc (a : ℤ) b := by
  have hlo : atoi (natDigits a ++ '-' :: natDigits b) = a :=
    atoi_natDigits_append a ('-' :: natDigits b)
      (Or.inr ⟨'-', natDigits b, rfl, by decide⟩)
  have hsep : (natDigits a ++ '-' :: natDigits b).dropWhile (fun c => c ≠ '-') =
      '-' :: natDigits b := by
    rw [dropWhile_append_all _ _ (fun c hc => by
      simp only [ne_eq, decide_eq_true_eq]
      exact isDigitChar_ne_dash (natDigits_all_digits a c hc))]
    simp [List.dropWhile_cons]
  simp only [tokenSet, hsep]
  rw [if_neg (by simp), hlo]
  simp [atoi_natDigits b]

theorem renderRun_ne_nil (r : Nat × Nat) : renderRun r ≠ [] := by
  by_cases h : r.1 = r.2
  · simp only [renderRun, if_pos h]
    exact natDigits_ne_nil r.1
  · simp only [renderRun, if_neg h]
    intro hcontra
    exact natDigits_ne_nil r.1 (List.append_eq_nil.mp hcontra).1

theorem renderRun_comma_free (r : Nat × Nat) : (',' : Char) ∉ renderRun r := by
  by_cases h : r.1 = r.2
  · simp only [renderRun, if_pos h]
    intro hmem
    exact isDigitChar_ne_comma (natDigits_all_digits r.1 ',' hmem) rfl
  · simp only [renderRun, if_neg h]
    intro hmem
    rcases List.mem_append.mp hmem with h1 | h1
    · exact isDigitChar_ne_comma (natDigits_all_digits r.1 ',' h1) rfl
    · rcases List.mem_cons.mp h1 with h2 | h2
      · exact absurd h2.symm (by decide)
      · exact isDigitChar_ne_comma (natDigits_all_digits r.2 ',' h2) rfl

theorem tokenSet_renderRun (r : Nat × Nat) :
    tokenSet (renderRun r) = Finset.Icc (r.1 : ℤ) r.2 := by
  by_cases h : r.1 = r.2
  · rw [renderRun, if_pos h, tokenSet_natDigits, h]
  · rw [renderRun, if_neg h, tokenSet_range]

/-! ## Lemmas: the scanning loops of `cpusetToStr` -/

theorem findNextSet_ge (s : Finset ℤ) (numCpus fuel cpu : Nat) :
    cpu ≤ findNextSet s numCpus fuel cpu := by
  induction fuel generalizing cpu with
  | zero => simp [findNextSet]
  | succ fuel ih =>
    simp only [findNextSet]
    by_cases h1 : cpu < numCpus
    · rw [if_pos h1]
      by_cases h2 : (cpu : ℤ) ∈ s
      · rw [if_pos h2]
      · rw [if_neg h2]
        exact le_trans (Nat.le_succ cpu) (ih (cpu + 1))
    · rw [if_neg h1]

theorem findNextSet_spec (s : Finset ℤ) (numCpus fuel cpu : Nat)
    (hfuel : numCpus - cpu ≤ fuel) :
    (findNextSet s numCpus fuel cpu < numCpus →
      ((findNextSet s numCpus fuel cpu : ℤ) ∈ s ∧ cpu ≤ findNextSet s numCpus fuel cpu)) ∧
    (∀ j : Nat, cpu ≤ j → j < findNextSet s numCpus fuel cpu → (j : ℤ) ∉ s) := by
  induction fuel generalizing cpu with
  | zero =>
    have : numCpus ≤ cpu := by omega
    simp only [findNextSet]
    exact ⟨fun h => absurd h (by omega), fun j hj1 hj2 => absurd hj2 (by omega)⟩
  | succ fuel ih =>
    simp only [findNextSet]
    by_cases h1 : cpu < numCpus
    · rw [if_pos h1]
      by_cases h2 : (cpu : ℤ) ∈ s
      · rw [if_pos h2]
        exact ⟨fun _ => ⟨h2, le_refl cpu⟩, fun j hj1 hj2 => absurd hj2 (by omega)⟩
      · rw [if_neg h2]
        have hrec := ih (cpu + 1) (by omega)
        refine ⟨fun h => ⟨(hrec.1 h).1, le_trans (Nat.le_succ cpu) (hrec.1 h).2⟩,
          fun j hj1 hj2 => ?_⟩
        rcases Nat.lt_or_ge cpu j with hlt | hge
        · exact hrec.2 j hlt hj2
        · have : j = cpu := by omega
          subst this
          exact h2
    · rw [if_neg h1]
      exact ⟨fun h => absurd h (by omega), fun j hj1 hj2 => absurd hj2 (by omega)⟩

theorem runEnd_ge (s : Finset ℤ) (numCpus fuel cpu : Nat) :
    cpu ≤ runEnd s numCpus fuel cpu := by
  induction fuel generalizing cpu with
  | zero => simp [runEnd]
  | succ fuel ih =>
    simp only [runEnd]
    by_cases h : ((cpu + 1 : Nat) : ℤ) ∈ s ∧ cpu + 1 < numCpus
    · rw [if_pos h]
      exact le_trans (Nat.le_succ cpu) (ih (cpu + 1))
    · rw [if_neg h]

theorem runEnd_lt (s : Finset ℤ) (numCpus fuel cpu : Nat) (h : cpu < numCpus) :
    runEnd s numCpus fuel cpu < numCpus := by
  induction fuel generalizing cpu with
  | zero => simpa [runEnd]
  | succ fuel ih =>
    simp only [runEnd]
    by_cases hc : ((cpu + 1 : Nat) : ℤ) ∈ s ∧ cpu + 1 < numCpus
    · rw [if_pos hc]
      exact ih (cpu + 1) hc.2
    · rwa [if_neg hc]

theorem runEnd_mem (s : Finset ℤ) (numCpus fuel cpu : Nat) :
    ∀ j : Nat, cpu < j → j ≤ runEnd s numCpus fuel cpu → (j : ℤ) ∈ s := by
  induction fuel generalizing cpu with
  | zero =>
    simp only [runEnd]
    intro j h1 h2
    omega
  | succ fuel ih =>
    simp only [runEnd]
    by_cases hc : ((cpu + 1 : Nat) : ℤ) ∈ s ∧ cpu + 1 < numCpus
    · rw [if_pos hc]
      intro j h1 h2
      rcases Nat.lt_or_ge (cpu + 1) j with hlt | hge
      · exact ih (cpu + 1) j hlt h2
      · have : j = cpu + 1 := by omega
        subst this
        exact hc.1
    · rw [if_neg hc]
      intro j h1 h2
      omega

theorem runEnd_next (s : Finset ℤ) (numCpus fuel cpu : Nat)
    (hfuel : numCpus - cpu ≤ fuel) :
    ¬(((runEnd s numCpus fuel cpu + 1 : Nat) : ℤ) ∈ s ∧
      runEnd s numCpus fuel cpu + 1 < numCpus) := by
  induction fuel generalizing cpu with
  | zero =>
    simp only [runEnd]
    intro hcontra
    omega
  | succ fuel ih =>
    simp only [runEnd]
    by_cases hc : ((cpu + 1 : Nat) : ℤ) ∈ s ∧ cpu + 1 < numCpus
    · rw [if_pos hc]
      exact ih (cpu + 1) (by omega)
    · rwa [if_neg hc]

/-- Membership characterization of the run list: the runs starting the scan
at `cpu` (with enough fuel) cover exactly the set bits in `[cpu, numCpus)`. -/
theorem cpusetRuns_mem (s : Finset ℤ) (numCpus fuel cpu : Nat)
    (hfuel : numCpus - cpu ≤ fuel) (i : ℤ) :
    (∃ r ∈ cpusetRuns s numCpus fuel cpu, (r.1 : ℤ) ≤ i ∧ i ≤ (r.2 : ℤ)) ↔
      (i ∈ s ∧ (cpu : ℤ) ≤ i ∧ i < (numCpus : ℤ)) := by
  induction fuel generalizing cpu with
  | zero =>
    simp only [cpusetRuns, List.not_mem_nil]
    constructor
    · rintro ⟨r, hr, -⟩
      exact absurd hr (by simp)
    · rintro ⟨-, h1, h2⟩
      omega
  | succ fuel ih =>
    simp only [cpusetRuns]
    by_cases h1 : cpu < numCpus
    · rw [if_pos h1]
      set f := findNextSet s numCpus numCpus cpu with hf
      have hfspec := findNextSet_spec s numCpus numCpus cpu (by omega)
      by_cases h2 : f < numCpus
      · rw [if_pos h2]
        set e := runEnd s numCpus numCpus f with he
        have hef : f ≤ e := runEnd_ge s numCpus numCpus f
        have heN : e < numCpus := runEnd_lt s numCpus numCpus f h2
        have hcf : cpu ≤ f := findNextSet_ge s numCpus numCpus cpu
        have hrec := ih (e + 1) (by omega)
        constructor
        · rintro ⟨r, hr, hr1, hr2⟩
          rcases List.mem_cons.mp hr with rfl | hr'
          · -- i lies in the run [f, e]
            refine ⟨?_, by push_cast at hr1 hr2 ⊢; omega, by push_cast at hr1 hr2 ⊢; omega⟩
            have h0 : (0 : ℤ) ≤ i := le_trans (by positivity) hr1
            obtain ⟨j, rfl⟩ : ∃ j : Nat, i = (j : ℤ) := ⟨i.toNat, (Int.toNat_of_nonneg h0).symm⟩
            rcases Nat.lt_or_ge f j with hlt | hge
            · exact runEnd_mem s numCpus numCpus f j hlt (by exact_mod_cast hr2)
            · have : j = f := by
                have := hr1
                push_cast at this
                omega
              subst this
              exact (hfspec.1 h2).1
          · have := (hrec.mp ⟨r, hr', hr1, hr2⟩)
            exact ⟨this.1, by push_cast at this ⊢; omega, this.2.2⟩
        · rintro ⟨hi, hcpu, hN⟩
          have h0 : (0 : ℤ) ≤ i := le_trans (by positivity) hcpu
          obtain ⟨j, rfl⟩ : ∃ j : Nat, i = (j : ℤ) := ⟨i.toNat, (Int.toNat_of_nonneg h0).symm⟩
          rcases Nat.lt_or_ge e j with hlt | hge
          · -- i is beyond this run: use the tail
            obtain ⟨r, hr, hr1, hr2⟩ := hrec.mpr ⟨hi, by push_cast; omega, hN⟩
            exact ⟨r, List.mem_cons_of_mem _ hr, hr1, hr2⟩
          · -- i is inside this run
            refine ⟨(f, e), List.mem_cons_self _ _, ?_, by push_cast; omega⟩
            simp only
            by_contra hlt
            push_neg at hlt
            have hjf : j < f := by omega
            have hjcpu : cpu ≤ j := by omega
            exact hfspec.2 j hjcpu hjf hi
      · rw [if_neg h2]
        simp only [List.not_mem_nil]
        constructor
        · rintro ⟨r, hr, -⟩
          exact absurd hr (by simp)
        · rintro ⟨hi, hcpu, hN⟩
          have h0 : (0 : ℤ) ≤ i := le_trans (by positivity) hcpu
          obtain ⟨j, rfl⟩ : ∃ j : Nat, i = (j : ℤ) := ⟨i.toNat, (Int.toNat_of_nonneg h0).symm⟩
          have hjf : j < f := by
            have : f = numCpus ∨ numCpus < f := by
              rcases Nat.lt_or_ge f numCpus with h | h
              · exact absurd h h2
              · omega
            omega
          exact absurd hi (hfspec.2 j (by omega) hjf)
    · rw [if_neg h1]
      simp only [List.not_mem_nil]
      constructor
      · rintro ⟨r, hr, -⟩
        exact absurd hr (by simp)
      · rintro ⟨-, hcpu, hN⟩
        omega

/-! ## Lemmas: comma splitting and joining -/

theorem splitComma_ne_nil (l : Str) : splitComma l ≠ [] := by
  cases l with
  | nil => simp [splitComma]
  | cons c rest =>
    simp only [splitComma]
    cases splitComma rest with
    | nil => simp
    | cons t ts =>
      by_cases h : c = ','
      · simp [h]
      · simp [h]

theorem splitComma_comma_free (p : Str) (h : (',' : Char) ∉ p) :
    splitComma p = [p] := by
  induction p with
  | nil => rfl
  | cons c cs ih =>
    have hc : c ≠ ',' := fun hc => h (hc ▸ List.mem_cons_self c cs)
    have hcs : (',' : Char) ∉ cs := fun hm => h (List.mem_cons_of_mem c hm)
    simp only [splitComma, ih hcs, if_neg hc]

theorem splitComma_append_comma (p rest : Str) (h : (',' : Char) ∉ p) :
    splitComma (p ++ ',' :: rest) = p :: splitComma rest := by
  induction p with
  | nil =>
    simp only [List.nil_append, splitComma]
    cases hrest : splitComma rest with
    | nil => exact absurd hrest (splitComma_ne_nil rest)
    | cons t ts => simp
  | cons c cs ih =>
    have hc : c ≠ ',' := fun hc => h (hc ▸ List.mem_cons_self c cs)
    have hcs : (',' : Char) ∉ cs := fun hm => h (List.mem_cons_of_mem c hm)
    have ih2 : splitComma (cs.append (',' :: rest)) = cs :: splitComma rest := ih hcs
    simp only [List.cons_append, splitComma, ih2, if_neg hc]

theorem splitComma_joinComma (ps : List Str) (hne : ps ≠ [])
    (hcf : ∀ p ∈ ps, (',' : Char) ∉ p) :
    splitComma (joinComma ps) = ps := by
  induction ps with
  | nil => exact absurd rfl hne
  | cons p qs ih =>
    cases qs with
    | nil =>
      exact splitComma_comma_free p (hcf p (List.mem_cons_self p []))
    | cons q rs =>
      have h1 : joinComma (p :: q :: rs) = p ++ ',' :: joinComma (q :: rs) := rfl
      rw [h1, splitComma_append_comma p _ (hcf p (List.mem_cons_self _ _)),
        ih (by simp) (fun x hx => hcf x (List.mem_cons_of_mem p hx))]

theorem flatten_comma_dropLast (ps : List Str) :
    ((ps.map (fun p => p ++ [','])).flatten).dropLast = joinComma ps := by
  induction ps with
  | nil => rfl
  | cons p qs ih =>
    cases qs with
    | nil => simp [joinComma]
    | cons q rs =>
      have hne : ((q :: rs).map (fun p => p ++ [','])).flatten ≠ [] := by
        simp only [List.map_cons, List.flatten_cons]
        intro hcontra
        have := List.append_eq_nil.mp hcontra
        exact absurd this.1 (by simp)
      have step : ((p :: q :: rs).map (fun t => t ++ [','])).flatten =
          (p ++ [',']) ++ ((q :: rs).map (fun t => t ++ [','])).flatten := by
        simp
      rw [step, List.dropLast_append_of_ne_nil _ hne, ih]
      show p ++ [','] ++ joinComma (q :: rs) = joinComma (p :: q :: rs)
      simp [joinComma]

/-! ## Lemmas: folded unions -/

theorem foldl_union_mem (l : List Str) (f : Str → Finset ℤ) (init : Finset ℤ) (i : ℤ) :
    (i ∈ l.foldl (fun acc t => acc ∪ f t) init) ↔ (i ∈ init ∨ ∃ t ∈ l, i ∈ f t) := by
  induction l generalizing init with
  | nil => simp
  | cons t ts ih =>
    simp only [List.foldl_cons, ih, Finset.mem_union, List.mem_cons]
    constructor
    · rintro (⟨h | h⟩ | ⟨u, hu, hi⟩)
      · exact Or.inl h
      · exact Or.inr ⟨t, Or.inl rfl, h⟩
      · exact Or.inr ⟨u, Or.inr hu, hi⟩
    · rintro (h | ⟨u, (rfl | hu), hi⟩)
      · exact Or.inl (Or.inl h)
      · exact Or.inl (Or.inr hi)
      · exact Or.inr ⟨u, hu, hi⟩

theorem strToCpuset_mem (spec : Str) (i : ℤ) :
    i ∈ strToCpuset spec ↔
      ∃ t ∈ (splitComma spec).filter (fun t => t ≠ []), i ∈ tokenSet t := by
  unfold strToCpuset
  rw [foldl_union_mem]
  simp

/-! ## The cpuset round-trip -/

theorem cpusetRuns_run_le (s : Finset ℤ) (numCpus fuel cpu : Nat) :
    ∀ r ∈ cpusetRuns s numCpus fuel cpu, r.1 ≤ r.2 := by
  induction fuel generalizing cpu with
  | zero => simp [cpusetRuns]
  | succ fuel ih =>
    simp only [cpusetRuns]
    by_cases h1 : cpu < numCpus
    · rw [if_pos h1]
      by_cases h2 : findNextSet s numCpus numCpus cpu < numCpus
      · rw [if_pos h2]
        intro r hr
        rcases List.mem_cons.mp hr with rfl | hr'
        · exact runEnd_ge s numCpus numCpus _
        · exact ih _ r hr'
      · rw [if_neg h2]
        simp
    · rw [if_neg h1]
      simp

/-- Parsing the serialization of a cpuset recovers exactly the bits in
`[0, numCpus)`. -/
theorem strToCpuset_cpusetToStr (numCpus : Nat) (s : Finset ℤ) :
    strToCpuset (cpusetToStr numCpus s) =
      s.filter (fun i => 0 ≤ i ∧ i < (numCpus : ℤ)) := by
  have hmem := cpusetRuns_mem s numCpus (numCpus + 1) 0 (by omega)
  have hms : cpusetToStr numCpus s =
      joinComma ((cpusetRuns s numCpus (numCpus + 1) 0).map renderRun) := by
    unfold cpusetToStr
    rw [← flatten_comma_dropLast ((cpusetRuns s numCpus (numCpus + 1) 0).map renderRun),
      List.map_map]
    rfl
  rw [hms]
  by_cases hcase : cpusetRuns s numCpus (numCpus + 1) 0 = []
  · rw [hcase]
    rw [hcase] at hmem
    have hempty : strToCpuset (joinComma (List.map renderRun [])) = ∅ := by decide
    rw [hempty]
    ext i
    simp only [Finset.not_mem_empty, false_iff, Finset.mem_filter, not_and]
    intro hi h0
    by_contra hN
    obtain ⟨r, hr, -⟩ := (hmem i).mpr ⟨hi, by omega, by omega⟩
    exact absurd hr (List.not_mem_nil r)
  · have hne : (cpusetRuns s numCpus (numCpus + 1) 0).map renderRun ≠ [] := by
      simpa using hcase
    have hcf : ∀ p ∈ (cpusetRuns s numCpus (numCpus + 1) 0).map renderRun,
        (',' : Char) ∉ p := by
      intro p hp
      obtain ⟨r, -, rfl⟩ := List.mem_map.mp hp
      exact renderRun_comma_free r
    ext i
    rw [strToCpuset_mem, splitComma_joinComma _ hne hcf]
    have hfilter : ((cpusetRuns s numCpus (numCpus + 1) 0).map renderRun).filter
        (fun t => t ≠ []) = (cpusetRuns s numCpus (numCpus + 1) 0).map renderRun := by
      refine List.filter_eq_self.mpr (fun p hp => ?_)
      obtain ⟨r, -, rfl⟩ := List.mem_map.mp hp
      simp only [ne_eq, decide_eq_true_eq]
      exact renderRun_ne_nil r
    rw [hfilter]
    simp only [Finset.mem_filter]
    constructor
    · rintro ⟨t, ht, hi⟩
      obtain ⟨r, hr, rfl⟩ := List.mem_map.mp ht
      rw [tokenSet_renderRun, Finset.mem_Icc] at hi
      have := (hmem i).mp ⟨r, hr, hi.1, hi.2⟩
      refine ⟨this.1, ?_, this.2.2⟩
      have := this.2.1
      omega
    · rintro ⟨hi, h0, hN⟩
      obtain ⟨r, hr, h1, h2⟩ := (hmem i).mpr ⟨hi, by omega, hN⟩
      refine ⟨renderRun r, List.mem_map_of_mem renderRun hr, ?_⟩
      rw [tokenSet_renderRun, Finset.mem_Icc]
      exact ⟨h1, h2⟩

/-! ## PolicyCodec: `strToPolicy` (utils.c:124-152) -/

/-- `string == strcasestr(string, "SCHED_")`: the string starts
(case-insensitively) with `"SCHED_"`. -/
def startsWithSchedCI (s : Str) : Bool :=
  (s.take 6).map charLower = ['s', 'c', 'h', 'e', 'd', '_']

/-- `0 == strncasecmp(string, lit, 1)` where `lit` starts with letter `c`:
the first characters agree case-insensitively (an empty string's first
character is the NUL terminator and never matches a letter). -/
def firstCharCI (s : Str) (c : Char) : Bool :=
  match s with
  | [] => false
  | d :: _ => charLower d = charLower c

/-- `strToPolicy` (utils.c:124): strip an optional leading `SCHED_`, then
match case-insensitively on the first character against the policy names
(`OTHER`, `FIFO`, `RR`, `BATCH`, `IDLE` — the latter two are present on
Linux, the target platform); `-1` on no match. -/
def strToPolicy (s : Str) : Int :=
  let t := if startsWithSchedCI s then s.drop 6 else s
  if firstCharCI t 'O' then SCHED_OTHER
  else if firstCharCI t 'F' then SCHED_FIFO
  else if firstCharCI t 'R' then SCHED_RR
  else if firstCharCI t 'B' then SCHED_BATCH
  else if firstCharCI t 'I' then SCHED_IDLE
  else -1

/-! ## The rule store (threadRules.c) -/

/-- `struct threadRule` (threadRules.c:52-65).  The C struct holds the
compiled regex `regex_t reg`; a compiled regex is external state of the
POSIX library, so the embedding records the `regcomp` outcome for the
rule's pattern (`reg_ok`), which is all the source ever obtains from it
besides matching (done through the `regMatch` oracle). -/
structure ThreadRule where
  name : Str
  pattern : Str
  cpus : Str
  reg_ok : Bool
  ch_policy : Bool
  ch_priority : Bool
  ch_affinity : Bool
  rel_priority : Bool
  policy : Int
  priority : Int
  cpuset : Finset ℤ
  deriving DecidableEq

/-- A `calloc`-zeroed `threadRule` (threadRules.c:113). -/
def zeroRule : ThreadRule :=
  { name := [], pattern := [], cpus := [], reg_ok := false, ch_policy := false,
    ch_priority := false, ch_affinity := false, rel_priority := false,
    policy := 0, priority := 0, cpuset := ∅ }

/-- `'*' != field[0] && '\0' != field[0]` (the `field &&` null check always
holds for the embedded callers). -/
def wantsField : Str → Bool
  | [] => false
  | c :: _ => c ≠ '*'

/-- The first `if` block of `parseModifiers` (threadRules.c:84-90): the
policy field.  A failed decode clears the just-set change flag again. -/
def parsePolicyField (prule : ThreadRule) (policy : Str) : ThreadRule :=
  if wantsField policy then
    let r := { prule with ch_policy := true, policy := strToPolicy policy }
    if r.policy = -1 then { r with ch_policy := false, policy := 0 } else r
  else prule

/-- The second `if` block of `parseModifiers` (threadRules.c:91-99): the
priority field.  A leading sign marks the value relative; the parsed value
is clamped into `[epicsThreadPriorityMin, epicsThreadPriorityMax]` right
here, at parse time. -/
def parsePriorityField (prule : ThreadRule) (priority : Str) : ThreadRule :=
  if wantsField priority then
    let r := { prule with ch_priority := true }
    let r := if priority.head? = some '+' ∨ priority.head? = some '-' then
        { r with rel_priority := true } else r
    let r := { r with priority := atoi priority }
    let r := if r.priority > epicsThreadPriorityMax then
        { r with priority := epicsThreadPriorityMax } else r
    if r.priority < epicsThreadPriorityMin then
        { r with priority := epicsThreadPriorityMin } else r
  else prule

/-- The third `if` block of `parseModifiers` (threadRules.c:100-103): the
affinity field. -/
def parseAffinityField (prule : ThreadRule) (cpus : Str) : ThreadRule :=
  if wantsField cpus then
    { prule with ch_affinity := true, cpuset := strToCpuset cpus }
  else prule

/-- `parseModifiers` (threadRules.c:82-104): the three statement blocks in
source order. -/
def parseModifiers (prule : ThreadRule) (policy priority cpus : Str) : ThreadRule :=
  parseAffinityField (parsePriorityField (parsePolicyField prule policy) priority) cpus

/-- The rule built by `mcoreThreadRuleAdd` before insertion: `calloc`,
`strdup` the three strings, `parseModifiers`, and
`regcomp(&prule->reg, pattern, ...)` — whose return status the source
drops on the floor (threadRules.c:128). -/
def newRuleOf (compileOk : Str → Bool) (name policy priority cpus pattern : Str) :
    ThreadRule :=
  let prule := { zeroRule with name := name, pattern := pattern, cpus := cpus }
  let prule := parseModifiers prule policy priority cpus
  { prule with reg_ok := compileOk pattern }

/-- `mcoreThreadRuleDelete` (threadRules.c:140-160): scan the list, remove
(and free) the first rule whose name matches; silently do nothing when no
rule matches. -/
def mcoreThreadRuleDelete (store : List ThreadRule) (name : Str) : List ThreadRule :=
  match store with
  | [] => []
  | r :: rest =>
      if r.name = name then rest else r :: mcoreThreadRuleDelete rest name

/-- `mcoreThreadRuleAdd` (threadRules.c:109-135): build the rule, delete
any existing rule of the same name, `ellAdd` (append at the tail).
Returns the C status (`0`; the `-1` allocation-failure paths have no
counterpart in the embedding) and the new store. -/
def mcoreThreadRuleAdd (compileOk : Str → Bool) (store : List ThreadRule)
    (name policy priority cpus pattern : Str) : Int × List ThreadRule :=
  let prule := newRuleOf compileOk name policy priority cpus pattern
  (0, mcoreThreadRuleDelete store name ++ [prule])

/-! ## RuleApplier (threadRules.c:208-265) -/

/-- The per-thread state `modifyRTProperties` reads and writes through
`epicsThreadId`: the thread's name, its OSI priority (`unsigned int`),
the POSIX scheduling policy and parameter, the real-time flag, and the
CPU affinity set.  The source writes the same values into the cached
`pthread_attr_t` and the live thread, so one copy suffices. -/
structure EpicsThread where
  name : Str
  osiPriority : Nat
  schedPolicy : Int
  schedPriority : Int
  isRealTimeScheduled : Bool
  cpuset : Finset ℤ
  deriving DecidableEq

/-- `modifyRTProperties` (threadRules.c:208-265).  `getPosix` stands for
EPICS base's `epicsThreadGetPosixPriority` (translation of the OSI
priority to the native scale; external to this repository).  The
relative-priority sum is computed in C in `unsigned int`, hence the
`% 2^32`; `priority < epicsThreadPriorityMin` compares unsigned values,
hence the cast through `Int` on a nonnegative number (the test is dead
for `epicsThreadPriorityMin = 0`, exactly as in C). -/
def modifyRTProperties (getPosix : EpicsThread → Int) (id : EpicsThread)
    (prule : ThreadRule) : EpicsThread :=
  let id1 :=
    if prule.ch_policy || prule.ch_priority then
      let ida :=
        if prule.ch_policy then
          { id with schedPolicy := prule.policy,
                    isRealTimeScheduled :=
                      prule.policy = SCHED_FIFO ∨ prule.policy = SCHED_RR }
        else id
      if prule.ch_priority then
        let priority : Nat :=
          if prule.rel_priority then
            let p := (((ida.osiPriority : Int) + prule.priority).emod (2 ^ 32)).toNat
            let p := if (p : Int) > epicsThreadPriorityMax then
                epicsThreadPriorityMax.toNat else p
            if (p : Int) < epicsThreadPriorityMin then
                epicsThreadPriorityMin.toNat else p
          else (prule.priority.emod (2 ^ 32)).toNat
        let idb := { ida with osiPriority := priority }
        { idb with schedPriority := getPosix idb }
      else ida
    else id
  if prule.ch_affinity then { id1 with cpuset := prule.cpuset } else id1

/-- `threadStartHook` (threadRules.c:267-284): walk the whole rule list in
order; `regexec` (the `regMatch` oracle: pattern, thread name) selects
which rules to apply.  The early return on an empty list has the same
effect as the loop. -/
def threadStartHook (regMatch : Str → Str → Bool) (getPosix : EpicsThread → Int)
    (rules : List ThreadRule) (id : EpicsThread) : EpicsThread :=
  match rules with
  | [] => id
  | r :: rest =>
      threadStartHook regMatch getPosix rest
        (if regMatch r.pattern id.name then modifyRTProperties getPosix id r else id)

/-! ## Reading rules from a file (threadRules.c:304-345) -/

/-- The whitespace set of `strspn(cp, " \t\r\n")`. -/
def lineWs (c : Char) : Bool := c = ' ' || c = '\t' || c = '\r' || c = '\n'

/-- `strchr(cp, ':')` plus the `*sp++ = '\0'` split: the part before the
first `':'` and the part after it, or `none` when there is no `':'`. -/
def splitFirstColon (s : Str) : Option (Str × Str) :=
  match s with
  | [] => none
  | c :: rest =>
      if c = ':' then some ([], rest)
      else (splitFirstColon rest).map (fun p => (c :: p.1, p.2))

/-- One iteration of the field-splitting loop (threadRules.c:327-338):
four `strchr`-splits give the five fields `name:policy:priority:affinity:pattern`
(the pattern keeps any further colons); the pattern is truncated at the
first `'\n'`/`'\r'` (`strpbrk`).  `none` is the "error parsing line" case. -/
def parseRuleLine (line : Str) : Option (Str × Str × Str × Str × Str) :=
  match splitFirstColon line with
  | none => none
  | some (a0, r1) =>
    match splitFirstColon r1 with
    | none => none
    | some (a1, r2) =>
      match splitFirstColon r2 with
      | none => none
      | some (a2, r3) =>
        match splitFirstColon r3 with
        | none => none
        | some (a3, r4) =>
          some (a0, a1, a2, a3, r4.takeWhile (fun c => ¬(c = '\n' ∨ c = '\r')))

/-- The comment/blank test (threadRules.c:324-326): skip the line when its
first non-whitespace character is `'#'` or it has none. -/
def isSkipLine (line : Str) : Bool :=
  (line.dropWhile lineWs).head? = some '#' || line.dropWhile lineWs = []

/-- `readRulesFromFile`'s line loop (threadRules.c:318-341), over the
file's lines (`fgets`; lines are given without their terminating
newline — a `'\r'` left by DOS line endings is handled by the `strpbrk`
truncation inside `parseRuleLine`).  A malformed line aborts the whole
file, returning the rules added so far. -/
def readRules (compileOk : Str → Bool) (lines : List Str)
    (store : List ThreadRule) (count : Nat) : Nat × List ThreadRule :=
  match lines with
  | [] => (count, store)
  | line :: rest =>
      if isSkipLine line then readRules compileOk rest store count
      else
        match parseRuleLine line with
        | none => (count, store)
        | some (n, pol, pri, cp, pat) =>
            readRules compileOk rest
              (mcoreThreadRuleAdd compileOk store n pol pri cp pat).2 (count + 1)

/-! ## Lemmas: `parseModifiers` and the rule store -/

theorem parsePolicyField_keeps (prule : ThreadRule) (pol : Str) :
    (parsePolicyField prule pol).name = prule.name ∧
    (parsePolicyField prule pol).pattern = prule.pattern ∧
    (parsePolicyField prule pol).reg_ok = prule.reg_ok ∧
    (parsePolicyField prule pol).priority = prule.priority ∧
    (parsePolicyField prule pol).rel_priority = prule.rel_priority ∧
    (parsePolicyField prule pol).ch_priority = prule.ch_priority := by
  unfold parsePolicyField
  dsimp only
  split_ifs <;> simp

theorem parsePriorityField_keeps (prule : ThreadRule) (pri : Str) :
    (parsePriorityField prule pri).name = prule.name ∧
    (parsePriorityField prule pri).pattern = prule.pattern ∧
    (parsePriorityField prule pri).reg_ok = prule.reg_ok := by
  unfold parsePriorityField
  dsimp only
  split_ifs <;> simp

theorem parseAffinityField_keeps (prule : ThreadRule) (cp : Str) :
    (parseAffinityField prule cp).name = prule.name ∧
    (parseAffinityField prule cp).pattern = prule.pattern ∧
    (parseAffinityField prule cp).reg_ok = prule.reg_ok ∧
    (parseAffinityField prule cp).priority = prule.priority ∧
    (parseAffinityField prule cp).rel_priority = prule.rel_priority ∧
    (parseAffinityField prule cp).ch_priority = prule.ch_priority := by
  unfold parseAffinityField
  split_ifs <;> simp

theorem parseModifiers_name (prule : ThreadRule) (pol pri cp : Str) :
    (parseModifiers prule pol pri cp).name = prule.name := by
  unfold parseModifiers
  rw [(parseAffinityField_keeps _ _).1, (parsePriorityField_keeps _ _).1,
    (parsePolicyField_keeps _ _).1]

theorem parseModifiers_pattern (prule : ThreadRule) (pol pri cp : Str) :
    (parseModifiers prule pol pri cp).pattern = prule.pattern := by
  unfold parseModifiers
  rw [(parseAffinityField_keeps _ _).2.1, (parsePriorityField_keeps _ _).2.1,
    (parsePolicyField_keeps _ _).2.1]

theorem parseModifiers_reg_ok (prule : ThreadRule) (pol pri cp : Str) :
    (parseModifiers prule pol pri cp).reg_ok = prule.reg_ok := by
  unfold parseModifiers
  rw [(parseAffinityField_keeps _ _).2.2.1, (parsePriorityField_keeps _ _).2.2,
    (parsePolicyField_keeps _ _).2.2.1]

/-- The stored priority after parsing a non-`*`, nonempty priority field:
clamped into `[epicsThreadPriorityMin, epicsThreadPriorityMax]` already at
parse time (threadRules.c:96-98). -/
theorem parsePriorityField_priority (prule : ThreadRule) (pri : Str)
    (h : wantsField pri = true) :
    (parsePriorityField prule pri).priority =
      max (min (atoi pri) epicsThreadPriorityMax) epicsThreadPriorityMin := by
  unfold parsePriorityField
  dsimp only
  simp only [h, if_true]
  split_ifs <;>
    simp_all [epicsThreadPriorityMax, epicsThreadPriorityMin] <;> omega

theorem parsePriorityField_rel (prule : ThreadRule) (pri : Str)
    (h : wantsField pri = true)
    (hsign : pri.head? = some '+' ∨ pri.head? = some '-') :
    (parsePriorityField prule pri).rel_priority = true := by
  unfold parsePriorityField
  dsimp only
  simp only [h, if_true, hsign]
  split_ifs <;> simp_all

theorem parseModifiers_priority (prule : ThreadRule) (pol pri cp : Str)
    (h : wantsField pri = true) :
    (parseModifiers prule pol pri cp).priority =
      max (min (atoi pri) epicsThreadPriorityMax) epicsThreadPriorityMin := by
  unfold parseModifiers
  rw [(parseAffinityField_keeps _ _).2.2.2.1, parsePriorityField_priority _ _ h]

theorem parseModifiers_rel (prule : ThreadRule) (pol pri cp : Str)
    (h : wantsField pri = true)
    (hsign : pri.head? = some '+' ∨ pri.head? = some '-') :
    (parseModifiers prule pol pri cp).rel_priority = true := by
  unfold parseModifiers
  rw [(parseAffinityField_keeps _ _).2.2.2.2.1, parsePriorityField_rel _ _ h hsign]

theorem newRuleOf_name (compileOk : Str → Bool) (name pol pri cp pat : Str) :
    (newRuleOf compileOk name pol pri cp pat).name = name := by
  unfold newRuleOf
  rw [parseModifiers_name]

theorem newRuleOf_pattern (compileOk : Str → Bool) (name pol pri cp pat : Str) :
    (newRuleOf compileOk name pol pri cp pat).pattern = pat := by
  unfold newRuleOf
  rw [parseModifiers_pattern]

theorem newRuleOf_reg_ok (compileOk : Str → Bool) (name pol pri cp pat : Str) :
    (newRuleOf compileOk name pol pri cp pat).reg_ok = compileOk pat := rfl

theorem mcoreThreadRuleDelete_sublist (store : List ThreadRule) (name : Str) :
    (mcoreThreadRuleDelete store name).Sublist store := by
  induction store with
  | nil => simp [mcoreThreadRuleDelete]
  | cons r rest ih =>
    simp only [mcoreThreadRuleDelete]
    by_cases h : r.name = name
    · rw [if_pos h]
      exact List.sublist_cons_of_sublist r (List.Sublist.refl rest)
    · rw [if_neg h]
      exact List.Sublist.cons₂ r ih

theorem mcoreThreadRuleDelete_not_mem (store : List ThreadRule) (name : Str)
    (h : name ∉ store.map ThreadRule.name) :
    mcoreThreadRuleDelete store name = store := by
  induction store with
  | nil => rfl
  | cons r rest ih =>
    simp only [List.map_cons, List.mem_cons] at h
    push_neg at h
    have hr : ¬(r.name = name) := fun hc => h.1 hc.symm
    simp only [mcoreThreadRuleDelete, if_neg hr]
    rw [ih h.2]

theorem mcoreThreadRuleDelete_eq_filter (store : List ThreadRule) (name : Str)
    (h : (store.map ThreadRule.name).Nodup) :
    mcoreThreadRuleDelete store name = store.filter (fun r => r.name ≠ name) := by
  induction store with
  | nil => rfl
  | cons r rest ih =>
    simp only [List.map_cons, List.nodup_cons] at h
    by_cases hr : r.name = name
    · simp only [mcoreThreadRuleDelete, if_pos hr, List.filter_cons]
      rw [if_neg (by simp [hr])]
      symm
      refine List.filter_eq_self.mpr (fun x hx => ?_)
      simp only [ne_eq, decide_eq_true_eq]
      intro hx2
      exact h.1 (hr ▸ hx2 ▸ List.mem_map_of_mem ThreadRule.name hx)
    · simp only [mcoreThreadRuleDelete, if_neg hr, List.filter_cons]
      rw [if_pos (by simp [hr]), ih h.2]

theorem mcoreThreadRuleDelete_names_nodup (store : List ThreadRule) (name : Str)
    (h : (store.map ThreadRule.name).Nodup) :
    ((mcoreThreadRuleDelete store name).map ThreadRule.name).Nodup :=
  h.sublist (List.Sublist.map ThreadRule.name (mcoreThreadRuleDelete_sublist store name))

theorem mcoreThreadRuleDelete_name_not_mem (store : List ThreadRule) (name : Str)
    (h : (store.map ThreadRule.name).Nodup) :
    name ∉ (mcoreThreadRuleDelete store name).map ThreadRule.name := by
  rw [mcoreThreadRuleDelete_eq_filter store name h]
  intro hmem
  obtain ⟨r, hr, hrn⟩ := List.mem_map.mp hmem
  have := List.of_mem_filter hr
  simp only [ne_eq, decide_eq_true_eq] at this
  exact this hrn

/-! ## Lemmas: the thread-start hook -/

theorem modifyRTProperties_name (getPosix : EpicsThread → Int) (id : EpicsThread)
    (prule : ThreadRule) :
    (modifyRTProperties getPosix id prule).name = id.name := by
  unfold modifyRTProperties
  split_ifs <;> rfl

/-- The hook is the fold of `modifyRTProperties` over the matching rules,
in list (= insertion) order. -/
theorem threadStartHook_eq_foldl (regMatch : Str → Str → Bool)
    (getPosix : EpicsThread → Int) (rules : List ThreadRule) (id : EpicsThread) :
    threadStartHook regMatch getPosix rules id =
      (rules.filter (fun r => regMatch r.pattern id.name)).foldl
        (modifyRTProperties getPosix) id := by
  induction rules generalizing id with
  | nil => rfl
  | cons r rest ih =>
    simp only [threadStartHook, List.filter_cons]
    by_cases h : regMatch r.pattern id.name = true
    · rw [if_pos h, ih, if_pos h]
      simp only [List.foldl_cons]
      congr 1
      · ext x
        rw [modifyRTProperties_name]
    · rw [if_neg h, ih]
      rw [if_neg h]

/-! ## Lemmas: reading a rules file -/

/-- The effect of one successfully parsed line on the store. -/
def applyLine (compileOk : Str → Bool) (store : List ThreadRule) (line : Str) :
    List ThreadRule :=
  match parseRuleLine line with
  | none => store
  | some (n, pol, pri, cp, pat) => (mcoreThreadRuleAdd compileOk store n pol pri cp pat).2

/-- A malformed line (non-comment, non-blank, too few fields) stops the
file: everything after it is ignored. -/
theorem readRules_stops (compileOk : Str → Bool) (good : List Str) (bad : Str)
    (rest : List Str) (store : List ThreadRule) (count : Nat)
    (hb1 : isSkipLine bad = false) (hb2 : parseRuleLine bad = none) :
    readRules compileOk (good ++ bad :: rest) store count =
      readRules compileOk good store count := by
  induction good generalizing store count with
  | nil =>
    simp only [List.nil_append, readRules, hb1, Bool.false_eq_true, if_false, hb2]
  | cons l ls ih =>
    simp only [List.cons_append, readRules]
    by_cases hl : isSkipLine l = true
    · rw [if_pos hl, if_pos hl]
      exact ih store count
    · rw [if_neg hl, if_neg hl]
      cases hp : parseRuleLine l with
      | none => rfl
      | some fields => exact ih _ _

/-- On a prefix whose every non-skipped line parses, the reader adds the
lines' rules in order (via `mcoreThreadRuleAdd`) and counts them. -/
theorem readRules_good (compileOk : Str → Bool) (good : List Str)
    (store : List ThreadRule) (count : Nat)
    (h : ∀ l ∈ good, isSkipLine l = false → (parseRuleLine l).isSome) :
    readRules compileOk good store count =
      (count + ((good.filter (fun l => !isSkipLine l)).length),
        (good.filter (fun l => !isSkipLine l)).foldl (applyLine compileOk) store) := by
  induction good generalizing store count with
  | nil => simp [readRules]
  | cons l ls ih =>
    simp only [readRules, List.filter_cons]
    by_cases hl : isSkipLine l = true
    · rw [if_pos hl, if_neg (by simp [hl])]
      exact ih store count (fun x hx => h x (List.mem_cons_of_mem l hx))
    · have hl' : isSkipLine l = false := by simpa using hl
      rw [if_neg hl, if_pos (by simp [hl'])]
      have hsome := h l (List.mem_cons_self l ls) hl'
      cases hp : parseRuleLine l with
      | none => rw [hp] at hsome; simp at hsome
      | some fields =>
        obtain ⟨n, pol, pri, cp, pat⟩ := fields
        dsimp only
        rw [ih _ _ (fun x hx => h x (List.mem_cons_of_mem l hx))]
        simp only [applyLine, hp, List.length_cons, List.foldl_cons, Prod.mk.injEq]
        exact ⟨by omega, trivial⟩

/-! ## Lemmas: `strToPolicy` -/

theorem toNat_ofNat_valid {n : Nat} (h : n < 55296) : (Char.ofNat n).toNat = n := by
  have hv : n.isValidChar := Or.inl h
  rw [Char.ofNat, dif_pos hv]
  simp [Char.ofNatAux, Char.toNat, UInt32.toNat, UInt32.ofNatCore]

theorem charLower_toNat (c : Char) :
    (charLower c).toNat =
      if 65 ≤ c.toNat ∧ c.toNat ≤ 90 then c.toNat + 32 else c.toNat := by
  unfold charLower
  split_ifs with h
  · exact toNat_ofNat_valid (by omega)
  · rfl

theorem charLower_of_not_upper {c : Char} (h : ¬(65 ≤ c.toNat ∧ c.toNat ≤ 90)) :
    charLower c = c := by
  unfold charLower
  rw [if_neg h]

theorem charLower_idem (c : Char) : charLower (charLower c) = charLower c := by
  by_cases h : 65 ≤ c.toNat ∧ c.toNat ≤ 90
  · refine charLower_of_not_upper ?_
    rw [charLower_toNat c, if_pos h]
    omega
  · rw [charLower_of_not_upper h]
    exact charLower_of_not_upper h

theorem firstCharCI_map (s : Str) (c : Char) :
    firstCharCI (s.map charLower) c = firstCharCI s c := by
  cases s with
  | nil => rfl
  | cons d rest => simp [firstCharCI, charLower_idem]

theorem startsWithSchedCI_map (s : Str) :
    startsWithSchedCI (s.map charLower) = startsWithSchedCI s := by
  unfold startsWithSchedCI
  rw [← List.map_take, List.map_map]
  have h : charLower ∘ charLower = charLower := funext charLower_idem
  rw [h]

/-- Case insensitivity: lower-casing the input does not change the decoded
policy. -/
theorem strToPolicy_map_lower (s : Str) :
    strToPolicy (s.map charLower) = strToPolicy s := by
  unfold strToPolicy
  dsimp only
  rw [startsWithSchedCI_map]
  by_cases h : startsWithSchedCI s
  · rw [if_pos h, if_pos h, ← List.map_drop]
    simp only [firstCharCI_map]
  · rw [if_neg h, if_neg h]
    simp only [firstCharCI_map]

/-- The literal `"SCHED_"`. -/
def schedLit : Str := ['S', 'C', 'H', 'E', 'D', '_']

theorem startsWithSchedCI_append (s : Str) :
    startsWithSchedCI (schedLit ++ s) = true := by
  unfold startsWithSchedCI
  rw [List.take_left' (by rfl)]
  decide

/-- Stripping: a leading `"SCHED_"` is removed before matching (when what
follows does not itself start with `"SCHED_"`, which would be stripped in
one call but not the other). -/
theorem strToPolicy_sched_strip (s : Str) (h : startsWithSchedCI s = false) :
    strToPolicy (schedLit ++ s) = strToPolicy s := by
  unfold strToPolicy
  dsimp only
  rw [startsWithSchedCI_append, if_pos rfl, List.drop_left' (by rfl), h]
  simp

/-- Prefix matching on the first character: any string starting with `'f'`
or `'F'` decodes to `SCHED_FIFO` (the leading character cannot start
`"SCHED_"`). -/
theorem strToPolicy_f_any (rest : Str) :
    strToPolicy ('f' :: rest) = SCHED_FIFO ∧
    strToPolicy ('F' :: rest) = SCHED_FIFO := by
  constructor <;>
  · unfold strToPolicy
    dsimp only
    rw [show startsWithSchedCI _ = false from by
      unfold startsWithSchedCI
      cases rest <;> simp [List.take, charLower]]
    simp [firstCharCI, charLower]

/-! ## Concrete sample data for the claim instances -/

/-- Oracle for a `regcomp` that rejects every pattern it is given (e.g. the
invalid pattern `"["`). -/
def alwaysFalseCompile : Str → Bool := fun _ => false

/-- Oracle for a `regcomp` that accepts every pattern it is given. -/
def alwaysTrueCompile : Str → Bool := fun _ => true

/-- Oracle for `regexec` on the two patterns of the C4 scenario: both
`"callback.*"` and `"call.*"` match the thread name `"callback-7"`. -/
def callbackMatcher : Str → Str → Bool := fun p n =>
  decide ((p = ("callback.*").toList ∨ p = ("call.*").toList) ∧
    n = ("callback-7").toList)

/-- A sample priority-translation oracle standing for
`epicsThreadGetPosixPriority`. -/
def osiPosix : EpicsThread → Int := fun t => t.osiPriority

/-- A thread named `"callback-7"` at OSI priority 50. -/
def callbackThread : EpicsThread :=
  { name := ("callback-7").toList, osiPriority := 50, schedPolicy := 0,
    schedPriority := 0, isRealTimeScheduled := false, cpuset := ∅ }

/-- A thread at the maximum OSI priority. -/
def maxThread : EpicsThread :=
  { name := ("t").toList, osiPriority := 99, schedPolicy := 0,
    schedPriority := 0, isRealTimeScheduled := false, cpuset := ∅ }

/-- The store of the C4 scenario: rule A (priority `"+5"`, pattern
`"callback.*"`) inserted first, then rule B (affinity `"0-1"`, pattern
`"call.*"`). -/
def storeAB : List ThreadRule :=
  (mcoreThreadRuleAdd alwaysTrueCompile
    (mcoreThreadRuleAdd alwaysTrueCompile []
      (("A").toList) (("*").toList) (("+5").toList) (("*").toList)
      (("callback.*").toList)).2
    (("B").toList) (("*").toList) (("*").toList) (("0-1").toList)
    (("call.*").toList)).2

/-- A store holding one rule named `"r1"` (policy FIFO, priority 10). -/
def storeR1 : List ThreadRule :=
  (mcoreThreadRuleAdd alwaysTrueCompile []
    (("r1").toList) (("f").toList) (("10").toList) (("*").toList)
    (("x.*").toList)).2

/-! ## The claims -/

/-- C1: the spec requires that an add-or-replace whose pattern does not
compile fails and stores nothing, so that every stored rule has a
successfully compiled pattern.  The code violates this: `mcoreThreadRuleAdd`
discards the result of `regcomp` (threadRules.c:128), stores the rule and
returns 0 whatever the compile outcome — shown here for every compile
oracle and store, and concretely for a `regcomp` that rejects the invalid
pattern `"["`. -/
theorem claim_C1_add_ignores_regcomp (compileOk : Str → Bool)
    (store : List ThreadRule) (name pol pri cp pattern : Str) :
    (mcoreThreadRuleAdd compileOk store name pol pri cp pattern).1 = 0 ∧
    newRuleOf compileOk name pol pri cp pattern ∈
      (mcoreThreadRuleAdd compileOk store name pol pri cp pattern).2 ∧
    (newRuleOf compileOk name pol pri cp pattern).reg_ok = compileOk pattern ∧
    (newRuleOf compileOk name pol pri cp pattern).pattern = pattern ∧
    ((mcoreThreadRuleAdd alwaysFalseCompile [] (("r1").toList) (("*").toList)
        (("*").toList) (("*").toList) (("[").toList)).2.map
      ThreadRule.pattern) = [("[").toList] := by
  refine ⟨rfl, ?_, newRuleOf_reg_ok _ _ _ _ _ _, newRuleOf_pattern _ _ _ _ _ _,
    by decide⟩
  unfold mcoreThreadRuleAdd
  dsimp only
  exact List.mem_append_right _ (List.mem_singleton_self _)

/-- C2: the spec requires a relative priority to be applied as
`clamp(current + delta)`, with no clamping of the delta at parse time.
The code violates this: `parseModifiers` (threadRules.c:96-98) clamps the
parsed value into `[0, 99]` before storing it, so the relative `"-5"` is
stored as 0 and a thread at priority 50 stays at 50 instead of moving to
45.  (The spec's positive example does hold: at priority max, `"+10"`
yields max.) -/
theorem claim_C2_relative_priority_clamped_at_parse :
    atoi (("-5").toList) = -5 ∧
    (parseModifiers zeroRule [] (("-5").toList) []).rel_priority = true ∧
    (parseModifiers zeroRule [] (("-5").toList) []).priority = 0 ∧
    (modifyRTProperties osiPosix callbackThread
      (parseModifiers zeroRule [] (("-5").toList) [])).osiPriority = 50 ∧
    ((50 : Int) ≠ max (min ((50 : Int) + (-5)) epicsThreadPriorityMax)
      epicsThreadPriorityMin) ∧
    (modifyRTProperties osiPosix maxThread
      (parseModifiers zeroRule [] (("+10").toList) [])).osiPriority = 99 := by
  refine ⟨by decide, by decide, by decide, by decide, by decide, by decide⟩

/-- C3: the cpuset codec round-trips: parsing the serialization of any
cpuset over the configured CPUs yields the same set, and serializing the
parse of a valid spec denotes the same bitset as the spec. -/
theorem claim_C3_cpuset_roundtrip (numCpus : Nat) (s : Finset ℤ)
    (hs : ∀ i ∈ s, 0 ≤ i ∧ i < (numCpus : ℤ)) (spec : Str)
    (hspec : ∀ i ∈ strToCpuset spec, 0 ≤ i ∧ i < (numCpus : ℤ)) :
    strToCpuset (cpusetToStr numCpus s) = s ∧
    strToCpuset (cpusetToStr numCpus (strToCpuset spec)) = strToCpuset spec := by
  constructor
  · rw [strToCpuset_cpusetToStr, Finset.filter_true_of_mem hs]
  · rw [strToCpuset_cpusetToStr, Finset.filter_true_of_mem hspec]

/-- Witness for C3 at 8 CPUs: the set `{0,3,4,5}` and the spec `"0,3-5"`. -/
theorem claim_C3_witness :
    (∀ i ∈ ({0, 3, 4, 5} : Finset ℤ), 0 ≤ i ∧ i < (8 : ℤ)) ∧
    (∀ i ∈ strToCpuset (("0,3-5").toList), 0 ≤ i ∧ i < (8 : ℤ)) ∧
    (strToCpuset (cpusetToStr 8 ({0, 3, 4, 5} : Finset ℤ)) = {0, 3, 4, 5} ∧
      strToCpuset (cpusetToStr 8 (strToCpuset (("0,3-5").toList))) =
        strToCpuset (("0,3-5").toList)) :=
  ⟨by decide, by decide,
    claim_C3_cpuset_roundtrip 8 {0, 3, 4, 5} (by decide) (("0,3-5").toList)
      (by decide)⟩

/-- C4: the thread-start hook applies every matching rule, in insertion
order (the fold over the filtered rule list), not first-match-wins; in the
concrete scenario the thread `"callback-7"` receives both rule A's
priority delta (50 → 55) and rule B's affinity `{0,1}`, and indeed both
rules match. -/
theorem claim_C4_hook_applies_all_matching (regMatch : Str → Str → Bool)
    (getPosix : EpicsThread → Int) (rules : List ThreadRule) (id : EpicsThread) :
    threadStartHook regMatch getPosix rules id =
      (rules.filter (fun r => regMatch r.pattern id.name)).foldl
        (modifyRTProperties getPosix) id ∧
    (threadStartHook callbackMatcher osiPosix storeAB callbackThread).osiPriority
      = 55 ∧
    (threadStartHook callbackMatcher osiPosix storeAB callbackThread).cpuset
      = {0, 1} ∧
    (storeAB.filter
      (fun r => callbackMatcher r.pattern callbackThread.name)).length = 2 :=
  ⟨threadStartHook_eq_foldl regMatch getPosix rules id, by decide, by decide,
    by decide⟩

/-- C5: starting from a store with unique rule names, an add-or-replace
leaves exactly one rule carrying the given name — the newly parsed
definition — and names stay unique. -/
theorem claim_C5_add_or_replace_unique (compileOk : Str → Bool)
    (store : List ThreadRule) (name pol pri cp pat : Str)
    (h : (store.map ThreadRule.name).Nodup) :
    ((mcoreThreadRuleAdd compileOk store name pol pri cp pat).2.filter
        (fun r => r.name = name)) = [newRuleOf compileOk name pol pri cp pat] ∧
    ((mcoreThreadRuleAdd compileOk store name pol pri cp pat).2.map
        ThreadRule.name).Nodup := by
  have hdel : ∀ r ∈ mcoreThreadRuleDelete store name, ¬(r.name = name) := by
    intro r hr hrn
    have hmm : r.name ∈ (mcoreThreadRuleDelete store name).map ThreadRule.name :=
      List.mem_map_of_mem ThreadRule.name hr
    rw [hrn] at hmm
    exact mcoreThreadRuleDelete_name_not_mem store name h hmm
  constructor
  · unfold mcoreThreadRuleAdd
    dsimp only
    rw [List.filter_append]
    rw [List.filter_eq_nil_iff.mpr (by
      intro r hr
      simpa using hdel r hr)]
    simp [newRuleOf_name]
  · unfold mcoreThreadRuleAdd
    dsimp only
    rw [List.map_append]
    refine List.Nodup.append (mcoreThreadRuleDelete_names_nodup store name h)
      (by simp) ?_
    intro x hx hx2
    simp only [List.map_cons, List.map_nil, List.mem_singleton] at hx2
    rw [newRuleOf_name] at hx2
    exact mcoreThreadRuleDelete_name_not_mem store name h (hx2 ▸ hx)

/-- Witness for C5: replacing the rule `"r1"` of `storeR1` with a new
definition leaves exactly the new rule under that name. -/
theorem claim_C5_witness :
    ((storeR1.map ThreadRule.name).Nodup) ∧
    (((mcoreThreadRuleAdd alwaysTrueCompile storeR1 (("r1").toList)
        (("*").toList) (("20").toList) (("*").toList) (("y.*").toList)).2.filter
        (fun r => r.name = ("r1").toList)) =
      [newRuleOf alwaysTrueCompile (("r1").toList) (("*").toList)
        (("20").toList) (("*").toList) (("y.*").toList)] ∧
    ((mcoreThreadRuleAdd alwaysTrueCompile storeR1 (("r1").toList)
        (("*").toList) (("20").toList) (("*").toList) (("y.*").toList)).2.map
        ThreadRule.name).Nodup) :=
  ⟨by decide,
    claim_C5_add_or_replace_unique alwaysTrueCompile storeR1 (("r1").toList)
      (("*").toList) (("20").toList) (("*").toList) (("y.*").toList) (by decide)⟩

/-- C6: policy decoding is case-insensitive (lower-casing the text changes
nothing), strips one leading `"SCHED_"`, and matches on the first
character, so `"f"`, `"FIFO"`, `"fifo"`, `"SCHED_FIFO"` (and any other
`f...` string) all decode to FIFO; `"xyz"` yields the error value `-1`
and the modifier grammar then leaves the rule's change-policy flag
clear. -/
theorem claim_C6_policy_decode (s : Str) (h : startsWithSchedCI s = false)
    (rest : Str) :
    strToPolicy (("f").toList) = SCHED_FIFO ∧
    strToPolicy (("FIFO").toList) = SCHED_FIFO ∧
    strToPolicy (("fifo").toList) = SCHED_FIFO ∧
    strToPolicy (("SCHED_FIFO").toList) = SCHED_FIFO ∧
    strToPolicy (("xyz").toList) = -1 ∧
    (parseModifiers zeroRule (("xyz").toList) [] []).ch_policy = false ∧
    (parseModifiers zeroRule (("xyz").toList) [] []).policy = 0 ∧
    strToPolicy (s.map charLower) = strToPolicy s ∧
    strToPolicy (schedLit ++ s) = strToPolicy s ∧
    strToPolicy ('f' :: rest) = SCHED_FIFO :=
  ⟨by decide, by decide, by decide, by decide, by decide, by decide, by decide,
    strToPolicy_map_lower s, strToPolicy_sched_strip s h,
    (strToPolicy_f_any rest).1⟩

/-- Witness for C6 at `s = "fifo"` and `rest = "oo"`. -/
theorem claim_C6_witness :
    startsWithSchedCI (("fifo").toList) = false ∧
    (strToPolicy (("f").toList) = SCHED_FIFO ∧
    strToPolicy (("FIFO").toList) = SCHED_FIFO ∧
    strToPolicy (("fifo").toList) = SCHED_FIFO ∧
    strToPolicy (("SCHED_FIFO").toList) = SCHED_FIFO ∧
    strToPolicy (("xyz").toList) = -1 ∧
    (parseModifiers zeroRule (("xyz").toList) [] []).ch_policy = false ∧
    (parseModifiers zeroRule (("xyz").toList) [] []).policy = 0 ∧
    strToPolicy ((("fifo").toList).map charLower) = strToPolicy (("fifo").toList) ∧
    strToPolicy (schedLit ++ ("fifo").toList) = strToPolicy (("fifo").toList) ∧
    strToPolicy ('f' :: ("oo").toList) = SCHED_FIFO) :=
  ⟨by decide, claim_C6_policy_decode (("fifo").toList) (by decide) (("oo").toList)⟩

/-- C7: deleting a name that is not in the store leaves the store
unchanged (the function reports no error — it returns `void` and takes
the silent fall-through path), and under the unique-names invariant
deleting a present name removes exactly the rule carrying it. -/
theorem claim_C7_delete_semantics (store : List ThreadRule) (name : Str) :
    (name ∉ store.map ThreadRule.name → mcoreThreadRuleDelete store name = store) ∧
    ((store.map ThreadRule.name).Nodup →
      mcoreThreadRuleDelete store name = store.filter (fun r => r.name ≠ name)) :=
  ⟨mcoreThreadRuleDelete_not_mem store name,
    mcoreThreadRuleDelete_eq_filter store name⟩

/-- Witness for C7 on `storeR1`: deleting the absent name `"zz"` is the
identity; deleting the present name `"r1"` filters it out. -/
theorem claim_C7_witness :
    ((("zz").toList ∉ storeR1.map ThreadRule.name ∧
      mcoreThreadRuleDelete storeR1 (("zz").toList) = storeR1)) ∧
    ((storeR1.map ThreadRule.name).Nodup ∧
      mcoreThreadRuleDelete storeR1 (("r1").toList) =
        storeR1.filter (fun r => r.name ≠ ("r1").toList)) :=
  ⟨⟨by decide, (claim_C7_delete_semantics storeR1 (("zz").toList)).1 (by decide)⟩,
    ⟨by decide, (claim_C7_delete_semantics storeR1 (("r1").toList)).2 (by decide)⟩⟩

/-- C8: a non-comment, non-blank line with fewer than five colon-separated
fields stops the file: the reader returns the count of the rules added
from the preceding lines, each added via `mcoreThreadRuleAdd`, and the
remaining lines are not processed. -/
theorem claim_C8_file_error_stops (compileOk : Str → Bool) (good : List Str)
    (bad : Str) (rest : List Str) (store : List ThreadRule) (count : Nat)
    (hb1 : isSkipLine bad = false) (hb2 : parseRuleLine bad = none)
    (hgood : ∀ l ∈ good, isSkipLine l = false → (parseRuleLine l).isSome) :
    readRules compileOk (good ++ bad :: rest) store count =
      (count + ((good.filter (fun l => !isSkipLine l)).length),
        (good.filter (fun l => !isSkipLine l)).foldl (applyLine compileOk) store) := by
  rw [readRules_stops compileOk good bad rest store count hb1 hb2,
    readRules_good compileOk good store count hgood]

/-- Witness for C8: a file with a comment line and one valid rule line
before the malformed line `"oops"`, one rule line after it. -/
theorem claim_C8_witness :
    isSkipLine (("oops").toList) = false ∧
    parseRuleLine (("oops").toList) = none ∧
    (∀ l ∈ [("# c").toList, ("r1:f:50:0-1:io.*").toList],
      isSkipLine l = false → (parseRuleLine l).isSome) ∧
    readRules alwaysTrueCompile
        ([("# c").toList, ("r1:f:50:0-1:io.*").toList] ++ ("oops").toList ::
          [("r2:f:50:*:x").toList]) [] 0 =
      (0 + (([("# c").toList, ("r1:f:50:0-1:io.*").toList].filter
          (fun l => !isSkipLine l)).length),
        ([("# c").toList, ("r1:f:50:0-1:io.*").toList].filter
          (fun l => !isSkipLine l)).foldl (applyLine alwaysTrueCompile) []) :=
  ⟨by decide, by decide, by decide,
    claim_C8_file_error_stops alwaysTrueCompile
      [("# c").toList, ("r1:f:50:0-1:io.*").toList] (("oops").toList)
      [("r2:f:50:*:x").toList] [] 0 (by decide) (by decide) (by decide)⟩

/-- C9: every rule parsed with a non-`*`, nonempty priority field stores a
priority already clamped into `[epicsThreadPriorityMin,
epicsThreadPriorityMax]` at parse time — including relative deltas, so
the negative relative `"-5"` is stored as the minimum (0) with its
relative flag set: the sign of the delta is lost before application. -/
theorem claim_C9_priority_clamped_at_parse (prule : ThreadRule)
    (pol pri cp : Str) (h : wantsField pri = true) :
    (parseModifiers prule pol pri cp).priority =
      max (min (atoi pri) epicsThreadPriorityMax) epicsThreadPriorityMin ∧
    epicsThreadPriorityMin ≤ (parseModifiers prule pol pri cp).priority ∧
    (parseModifiers prule pol pri cp).priority ≤ epicsThreadPriorityMax ∧
    (parseModifiers zeroRule [] (("-5").toList) []).priority =
      epicsThreadPriorityMin ∧
    (parseModifiers zeroRule [] (("-5").toList) []).rel_priority = true := by
  refine ⟨parseModifiers_priority prule pol pri cp h, ?_, ?_, by decide, by decide⟩
  · rw [parseModifiers_priority prule pol pri cp h]
    simp only [epicsThreadPriorityMin, epicsThreadPriorityMax]
    omega
  · rw [parseModifiers_priority prule pol pri cp h]
    simp only [epicsThreadPriorityMin, epicsThreadPriorityMax]
    omega

/-- Witness for C9 at the priority field `"-5"`. -/
theorem claim_C9_witness :
    wantsField (("-5").toList) = true ∧
    ((parseModifiers zeroRule [] (("-5").toList) []).priority =
      max (min (atoi (("-5").toList)) epicsThreadPriorityMax)
        epicsThreadPriorityMin ∧
    epicsThreadPriorityMin ≤ (parseModifiers zeroRule [] (("-5").toList) []).priority ∧
    (parseModifiers zeroRule [] (("-5").toList) []).priority ≤ epicsThreadPriorityMax ∧
    (parseModifiers zeroRule [] (("-5").toList) []).priority =
      epicsThreadPriorityMin ∧
    (parseModifiers zeroRule [] (("-5").toList) []).rel_priority = true) :=
  ⟨by decide, claim_C9_priority_clamped_at_parse zeroRule [] (("-5").toList) []
    (by decide)⟩

/-- C10: a range token `"n-m"` with `n > m` contributes no CPU indices
(the inclusive loop `for (i = from; i <= to; i++)` never runs), while the
other comma-separated tokens of the specification parse as usual. -/
theorem claim_C10_inverted_range (pre post : List Str) (n m : Nat) (hnm : m < n)
    (hpre : ∀ p ∈ pre, (',' : Char) ∉ p) (hpost : ∀ p ∈ post, (',' : Char) ∉ p) :
    tokenSet (natDigits n ++ '-' :: natDigits m) = ∅ ∧
    strToCpuset (joinComma (pre ++ (natDigits n ++ '-' :: natDigits m) :: post)) =
      strToCpuset (joinComma (pre ++ post)) := by
  have htok_ne : natDigits n ++ '-' :: natDigits m ≠ [] := by
    intro hcontra
    exact absurd (List.append_eq_nil.mp hcontra).2 (by simp)
  have htok_cf : (',' : Char) ∉ natDigits n ++ '-' :: natDigits m := by
    intro hmem
    rcases List.mem_append.mp hmem with h1 | h1
    · exact isDigitChar_ne_comma (natDigits_all_digits n ',' h1) rfl
    · rcases List.mem_cons.mp h1 with h2 | h2
      · exact absurd h2.symm (by decide)
      · exact isDigitChar_ne_comma (natDigits_all_digits m ',' h2) rfl
  have hempty : tokenSet (natDigits n ++ '-' :: natDigits m) = ∅ := by
    rw [tokenSet_range]
    refine Finset.Icc_eq_empty ?_
    intro hle
    have : (n : ℤ) ≤ (m : ℤ) := hle
    omega
  refine ⟨hempty, ?_⟩
  have hcf_all : ∀ p ∈ pre ++ (natDigits n ++ '-' :: natDigits m) :: post,
      (',' : Char) ∉ p := by
    intro p hp
    rcases List.mem_append.mp hp with h1 | h1
    · exact hpre p h1
    · rcases List.mem_cons.mp h1 with h2 | h2
      · subst h2; exact htok_cf
      · exact hpost p h2
  have hLHS := splitComma_joinComma (pre ++ (natDigits n ++ '-' :: natDigits m) :: post)
    (by simp) hcf_all
  by_cases hpp : pre ++ post = []
  · obtain ⟨hpre0, hpost0⟩ := List.append_eq_nil.mp hpp
    subst hpre0
    subst hpost0
    ext i
    rw [strToCpuset_mem, strToCpuset_mem]
    simp only [List.nil_append] at hLHS ⊢
    rw [hLHS]
    constructor
    · rintro ⟨t, ht, hi⟩
      simp only [List.filter_cons, List.filter_nil] at ht
      rw [if_pos (by simp [htok_ne])] at ht
      simp only [List.mem_singleton] at ht
      subst ht
      rw [hempty] at hi
      exact absurd hi (Finset.not_mem_empty i)
    · rintro ⟨t, ht, -⟩
      simp [splitComma] at ht
  · have hRHS := splitComma_joinComma (pre ++ post) hpp (by
      intro p hp
      rcases List.mem_append.mp hp with h1 | h1
      · exact hpre p h1
      · exact hpost p h1)
    ext i
    rw [strToCpuset_mem, strToCpuset_mem, hLHS, hRHS]
    rw [List.filter_append, List.filter_append, List.filter_cons]
    rw [if_pos (by simp [htok_ne])]
    constructor
    · rintro ⟨t, ht, hi⟩
      rcases List.mem_append.mp ht with h1 | h1
      · exact ⟨t, List.mem_append_left _ h1, hi⟩
      · rcases List.mem_cons.mp h1 with h2 | h2
        · subst h2
          rw [hempty] at hi
          exact absurd hi (Finset.not_mem_empty i)
        · exact ⟨t, List.mem_append_right _ h2, hi⟩
    · rintro ⟨t, ht, hi⟩
      rcases List.mem_append.mp ht with h1 | h1
      · exact ⟨t, List.mem_append_left _ h1, hi⟩
      · exact ⟨t, List.mem_append_right _ (List.mem_cons_of_mem _ h1), hi⟩

/-- Witness for C10 on the specification `"0,5-3,7"`. -/
theorem claim_C10_witness :
    (3 : Nat) < 5 ∧
    (∀ p ∈ [(("0").toList)], (',' : Char) ∉ p) ∧
    (∀ p ∈ [(("7").toList)], (',' : Char) ∉ p) ∧
    (tokenSet (natDigits 5 ++ '-' :: natDigits 3) = ∅ ∧
      strToCpuset (joinComma ([(("0").toList)] ++
          (natDigits 5 ++ '-' :: natDigits 3) :: [(("7").toList)])) =
        strToCpuset (joinComma ([(("0").toList)] ++ [(("7").toList)]))) :=
  ⟨by decide, by decide, by decide,
    claim_C10_inverted_range [(("0").toList)] [(("7").toList)] 5 3 (by decide)
      (by decide) (by decide)⟩

end MCoreUtils
